import Mathlib

/-!
Verification of the interactive prompt engine of the kanban CLI
(`src/utils/tasks.mjs`): the filter/rank engine, the keypress-driven
prompt state machine of `askQuestion`, the free-text loop, the
test-injection protocol, and the file-input flow of `askFileInput`.

Strings are embedded as `List Char`; JavaScript `toLowerCase`,
`includes`, `startsWith` become `lowerStr`, `containsL`, `startsWithL`.
`Array.prototype.sort` is called in the source with a comparator that is
not a consistent comparison function (it returns `-1` whenever its first
argument has a name that starts with the filter, even when both arguments do), so
ECMAScript leaves the resulting order implementation-defined and we model
the sort as the engine the CLI actually runs on, the V8 engine of Node: for arrays of
fewer than 64 elements the TimSort of V8 degenerates to one natural-run
detection (reversing a strictly descending run in place) followed by a
binary insertion sort, which is embedded below as `jsSort`.
-/

namespace Kanban

/-- An answer option after normalization: a display name and an opaque
value (`{ name, value }` in `askQuestion`). -/
structure Opt (α : Type) where
  name : List Char
  value : α
deriving DecidableEq, Repr

/-- Abbreviation turning a Lean string literal into the character-list
embedding of a JavaScript string. -/
def chars (s : String) : List Char := s.toList

/-- JavaScript `s.toLowerCase()` (ASCII case mapping). -/
def lowerStr (s : List Char) : List Char := s.map Char.toLower

/-- JavaScript `hay.startsWith(pre)`. -/
def startsWithL (hay pre : List Char) : Bool := pre.isPrefixOf hay

/-- JavaScript `hay.includes(sub)` (substring test at any position). -/
def containsL (hay sub : List Char) : Bool :=
  match hay with
  | [] => sub.isEmpty
  | _ :: t => sub.isPrefixOf hay || containsL t sub

/-- Raw options as supplied by callers of `askQuestion`: falsy entries,
bare strings, or explicit name/value objects. -/
inductive RawOption where
  | falsy
  | str (s : List Char)
  | pair (name : List Char) (value : List Char)
deriving DecidableEq, Repr

/-- Lines 35 and 51 of `askQuestion`: falsy options are discarded, then
bare strings become `{ name: s, value: s }`. -/
def normalize (l : List RawOption) : List (Opt (List Char)) :=
  (l.filter fun o => match o with | .falsy => false | _ => true).map
    fun o =>
      match o with
      | .falsy => ⟨[], []⟩
      | .str s => ⟨s, s⟩
      | .pair n v => ⟨n, v⟩

/-! ### The sort model

`jsSort` embeds what `Array.prototype.sort(comparator)` does on Node/V8
for arrays of fewer than 64 elements: `makeRun` is the V8 macro
`CountAndMakeRun` (detect an initial ascending run `compare >= 0`, or a
strictly descending run `compare < 0` which is then reversed), and
`binInsertLoop` is the V8 macro `BinaryInsertionSort` (each remaining element is
inserted at the position found by a binary search that keeps the probe
order `compare(pivot, a[mid])`). -/

/-- The strictly descending chain extension of the V8 macro `CountAndMakeRun`:
keeps taking elements while `cmp current previous < 0`. Returns the
chain and the untouched remainder. -/
def descChain (cmp : α → α → Int) : α → List α → List α × List α
  | _, [] => ([], [])
  | prev, x :: xs =>
    if cmp x prev < 0 then
      let p := descChain cmp x xs
      (x :: p.1, p.2)
    else ([], x :: xs)

/-- The ascending chain extension of the V8 macro `CountAndMakeRun`: keeps
taking elements while `cmp current previous >= 0`. -/
def ascChain (cmp : α → α → Int) : α → List α → List α × List α
  | _, [] => ([], [])
  | prev, x :: xs =>
    if cmp x prev < 0 then ([], x :: xs)
    else
      let p := ascChain cmp x xs
      (x :: p.1, p.2)

/-- The V8 macro `CountAndMakeRun`: the initial natural run (reversed in place
when it was descending) together with the rest of the array. -/
def makeRun (cmp : α → α → Int) : List α → List α × List α
  | [] => ([], [])
  | [a] => ([a], [])
  | a :: b :: rest =>
    if cmp b a < 0 then
      let p := descChain cmp b rest
      ((a :: b :: p.1).reverse, p.2)
    else
      let p := ascChain cmp b rest
      (a :: b :: p.1, p.2)

/-- The binary search of the V8 macro `BinaryInsertionSort`: narrow `[left, right)`
with `mid = left + (right - left) / 2`, moving `right := mid` exactly when
`cmp pivot a[mid] < 0`. -/
def bsearchPos (cmp : α → α → Int) (pivot : α) (arr : List α)
    (left right : Nat) : Nat :=
  if h : left < right then
    let mid := left + (right - left) / 2
    if cmp pivot (arr.getD mid pivot) < 0 then bsearchPos cmp pivot arr left mid
    else bsearchPos cmp pivot arr (mid + 1) right
  else left
termination_by right - left
decreasing_by
  · omega
  · omega

/-- Insertion at a given position (the element shift of
`BinaryInsertionSort`). -/
def insertAt (l : List α) (pos : Nat) (x : α) : List α :=
  l.take pos ++ x :: l.drop pos

/-- The V8 macro `BinaryInsertionSort` over the not-yet-sorted remainder. -/
def binInsertLoop (cmp : α → α → Int) : List α → List α → List α
  | acc, [] => acc
  | acc, p :: rest =>
    binInsertLoop cmp (insertAt acc (bsearchPos cmp p acc 0 acc.length) p) rest

/-- What `Array.prototype.sort(cmp)` does on Node/V8 for arrays of fewer
than 64 elements (one `CountAndMakeRun`, then `BinaryInsertionSort`). -/
def jsSort (cmp : α → α → Int) (l : List α) : List α :=
  match l with
  | [] => []
  | [a] => [a]
  | _ :: _ :: _ =>
    let p := makeRun cmp l
    binInsertLoop cmp p.1 p.2

/-! ### The filter/rank engine

Options are tagged with their index in the normalized `options` array;
the tag models JavaScript object identity, so `options.indexOf(a)` is the
tag of `a`. -/

/-- The abstract shape of the filter-branch comparator: `-1` when the
first argument satisfies `S`, `1` when only the second does, an index
difference otherwise. `optCmp` below is an instance of this shape. -/
def rankCmp (S : α → Bool) (idx : α → Int) (a b : α) : Int :=
  if S a then -1 else if S b then 1 else idx a - idx b

/-- The comparator of the filter branch (lines 86-90 of `askQuestion`):
`-1` when the lowercase name of `a` starts with the filter, else `1`
when that of `b` does, else `options.indexOf(a) - options.indexOf(b)`. -/
def optCmp (filter : List Char) (a b : Nat × Opt α) : Int :=
  if startsWithL (lowerStr a.2.name) filter then -1
  else if startsWithL (lowerStr b.2.name) filter then 1
  else (a.1 : Int) - (b.1 : Int)

/-- Lines 82-92 of `askQuestion`: with an empty filter the full option
list; otherwise the options whose lowercase name contains the (already
lowercased) filter, passed through `Array.prototype.sort` with `optCmp`;
an empty result falls back to the full list. -/
def filterRank (opts : List (Opt α)) (filter : List Char) :
    List (Nat × Opt α) :=
  if filter.isEmpty then opts.enum
  else
    let matched := opts.enum.filter fun p => containsL (lowerStr p.2.name) filter
    let sorted := jsSort (optCmp filter) matched
    if sorted.isEmpty then opts.enum else sorted

/-- The ordering the specification describes for the filter engine:
matching options whose name starts with the filter first, then the
remaining matching options, both groups in original order. Written from
the words of the spec, to be compared with `filterRank`. -/
def specFilterRank (opts : List (Opt α)) (filter : List Char) :
    List (Nat × Opt α) :=
  let matched := opts.enum.filter fun p => containsL (lowerStr p.2.name) filter
  (matched.filter fun p => startsWithL (lowerStr p.2.name) filter) ++
    (matched.filter fun p => !startsWithL (lowerStr p.2.name) filter)

/-! ### The prompt state machine

Option mode of `askQuestion` keeps `selectedOptionIndex`, `questionIndex`
(the question scroll offset), the readline edit buffer `rl.line`, the
lowercased `filter`, and the derived `filteredOptions`. Terminal
geometry is abstracted into a configuration carrying the normalized
options, the number of question lines, and the computed `questionRows`;
`scrollbarB` is line 55 of the source. -/

/-- Configuration of one prompt invocation: normalized options, number
of question lines, and the question window height `questionRows`. -/
structure PromptCfg (α : Type) where
  options : List (Opt α)
  questionLen : Nat
  questionRows : Nat
deriving DecidableEq, Repr

/-- Line 55: `scrollbar = (question.length > questionRows)`. -/
def scrollbarB (cfg : PromptCfg α) : Bool :=
  decide (cfg.questionRows < cfg.questionLen)

/-- Logical keypress names as delivered to the `keypress` event
listener: the special names the listener tests for, plus printable keys
(whose event name is the character itself). -/
inductive KeyName where
  | ret
  | up
  | down
  | pageup
  | pagedown
  | escape
  | ch (c : Char)
deriving DecidableEq, Repr

/-- The mutable prompt state of lines 57-60 of `askQuestion`. -/
structure PromptState (α : Type) where
  selectedOptionIndex : Nat
  questionIndex : Nat
  line : List Char
  filter : List Char
  filteredOptions : List (Nat × Opt α)
deriving DecidableEq, Repr

/-- Lines 57-60: initial state of a prompt invocation. -/
def initState (cfg : PromptCfg α) : PromptState α :=
  ⟨0, 0, [], [], cfg.options.enum⟩

/-- The final `else` branch of the event listener (lines 80-93): escape
clears the edit buffer, then the filter is recomputed from the buffer,
`filteredOptions` is recomputed by the filter/rank engine, and the
selection index is reset to `0`. -/
def filterEdit (cfg : PromptCfg α) (name : KeyName) (st : PromptState α) :
    PromptState α :=
  let line := if name = .escape then [] else st.line
  let filter := lowerStr line
  { st with
    line := line
    filter := filter
    filteredOptions := filterRank cfg.options filter
    selectedOptionIndex := 0 }

/-- The `eventListener` of lines 61-94: `return` changes nothing (the
resolution happens at the readline level), `up`/`down` move the
selection with wraparound, `pageup`/`pagedown` scroll the question only
when the scrollbar is needed and otherwise fall through to the filter
branch, and every remaining name takes the filter branch. -/
def eventStep (cfg : PromptCfg α) (name : KeyName) (st : PromptState α) :
    PromptState α :=
  match name with
  | .ret => st
  | .up =>
    if st.selectedOptionIndex = 0 then
      { st with selectedOptionIndex := st.filteredOptions.length - 1 }
    else
      { st with selectedOptionIndex := st.selectedOptionIndex - 1 }
  | .down =>
    if st.selectedOptionIndex = st.filteredOptions.length - 1 then
      { st with selectedOptionIndex := 0 }
    else
      let nextIdx := min (st.filteredOptions.length - 1) (st.selectedOptionIndex + 1)
      { st with selectedOptionIndex := nextIdx }
  | .pageup =>
    if scrollbarB cfg then { st with questionIndex := st.questionIndex - 1 }
    else filterEdit cfg .pageup st
  | .pagedown =>
    if scrollbarB cfg then
      let nextQ := min (cfg.questionLen - cfg.questionRows) (st.questionIndex + 1)
      { st with questionIndex := nextQ }
    else filterEdit cfg .pagedown st
  | .escape => filterEdit cfg .escape st
  | .ch c => filterEdit cfg (.ch c) st

/-- What readline itself does with a key before the listener runs: a
printable key is appended to the edit buffer, special keys leave it
unchanged. -/
def bufferEffect (name : KeyName) (st : PromptState α) : PromptState α :=
  match name with
  | .ch c => { st with line := st.line ++ [c] }
  | _ => st

/-- One real keyboard event: readline updates the edit buffer, then the
`keypress` listener runs. -/
def realKeypress (cfg : PromptCfg α) (name : KeyName) (st : PromptState α) :
    PromptState α :=
  eventStep cfg name (bufferEffect name st)

/-- Typing a string character by character. -/
def typedString (cfg : PromptCfg α) (s : List Char) (st : PromptState α) :
    PromptState α :=
  s.foldl (fun acc c => realKeypress cfg (.ch c) acc) st

/-- Line 117/134: the value the promise resolves with,
`filteredOptions[selectedOptionIndex].value` (`none` models the
JavaScript `undefined` of an out-of-range index). -/
def submitValue (st : PromptState α) : Option α :=
  (st.filteredOptions.get? st.selectedOptionIndex).map fun p => p.2.value

/-- Running the prompt over a list of real key events: a `return` key
resolves the promise with the currently selected value, any other key
transitions the state. `none` means the key script ended with the
prompt still open. -/
def runKeys (cfg : PromptCfg α) : List KeyName → PromptState α → Option α
  | [], _ => none
  | k :: ks, st =>
    if k = .ret then submitValue st
    else runKeys cfg ks (realKeypress cfg k st)

/-! ### The test-injection protocol

Lines 120-136: a data line `►:command:args` is interpreted as an
injected command; `keypress` feeds a name straight to the event
listener, `set_line` overwrites `rl.line`, `submit` resolves the
promise. -/

/-- The three recognized injected commands. -/
inductive Injected where
  | keypress (name : KeyName)
  | setLine (s : List Char)
  | submit
deriving DecidableEq, Repr

/-- The state transition of the injected-command data handler: an
injected `keypress` runs the event listener (the edit buffer is not
touched), `set_line` only assigns the edit buffer, `submit` leaves the
state alone (it resolves instead). -/
def injState (cfg : PromptCfg α) : Injected → PromptState α → PromptState α
  | .keypress n, st => eventStep cfg n st
  | .setLine s, st => { st with line := s }
  | .submit, st => st

/-- Whether an injected command resolves the prompt promise. -/
def injResolves : Injected → Bool
  | .submit => true
  | _ => false

/-! ### Free-text mode

Lines 38-48 of `askQuestion`: with no options, ask for a line in a loop
and accept only a truthy (non-empty) answer. -/

/-- One iteration of the free-text loop: an empty line is rejected (the
loop redraws and asks again), a non-empty line is returned verbatim. -/
def freeStep (answer : List Char) : Option (List Char) :=
  if answer.isEmpty then none else some answer

/-- The free-text loop over a script of typed lines: the first non-empty
line is the answer; `none` means the script ran out with the loop still
asking. -/
def freeTextRun : List (List Char) → Option (List Char)
  | [] => none
  | l :: rest =>
    match freeStep l with
    | some a => some a
    | none => freeTextRun rest

/-! ### The file-input flow

`askFileInput` (lines 149-208): the scratch file is an `Option
(List Char)` (`none` when absent), the interactions of the user are a script
of events, and the outcome is the returned result together with the
final scratch-file state. -/

/-- Lines 153-159: the cleanup handler unlinks the scratch file only
when it exists (so cleanup of an already-removed file is a silent
no-op), then deregisters itself. -/
def cleanupFS (fs : Option (List Char)) : Option (List Char) :=
  if fs.isSome then none else fs

/-- The result of `askFileInput`: the final content, or the sentinel
`false` of the abort branch. -/
inductive FIResult where
  | content (s : List Char)
  | aborted
deriving DecidableEq, Repr

/-- One user interaction inside `askFileInput`: a menu choice (opening
the editor carries the scratch-file state once the blocking editor
exits), or an answer to the unmodified-template confirmation. -/
inductive FIEvent where
  | menuOpenEditor (fsAfter : Option (List Char))
  | menuContinue
  | menuAbort
  | confirm (ans : List Char)
deriving DecidableEq, Repr

/-- The `while (true)` loop of `askFileInput` (lines 167-205) over an
event script, threading the scratch-file state. On `continue`, a
missing file is recreated with the initial content; a result
byte-identical to the initial content asks the confirmation and only the
answer `Yes` terminates; `abort` cleans up and returns the sentinel.
`none` means the script ended while the menu was still looping (or a
confirmation answer arrived when none was asked). -/
def runFI (content : List Char) :
    Option (List Char) → List FIEvent → Option (FIResult × Option (List Char))
  | _, [] => none
  | fs, e :: rest =>
    match e with
    | .menuOpenEditor fsAfter => runFI content fsAfter rest
    | .menuAbort => some (.aborted, cleanupFS fs)
    | .confirm _ => none
    | .menuContinue =>
      match fs with
      | none =>
        match rest with
        | .confirm ans :: rest2 =>
          if ans = chars "Yes" then some (.content content, cleanupFS (some content))
          else runFI content (some content) rest2
        | _ => none
      | some cur =>
        if cur = content then
          match rest with
          | .confirm ans :: rest2 =>
            if ans = chars "Yes" then some (.content cur, cleanupFS (some cur))
            else runFI content (some cur) rest2
          | _ => none
        else some (.content cur, cleanupFS (some cur))

/-- The whole `askFileInput` flow: line 150 first writes the initial content to
the scratch file, then the menu loop runs. -/
def askFileInput (content : List Char) (script : List FIEvent) :
    Option (FIResult × Option (List Char)) :=
  runFI content (some content) script

/-! ### Concrete scenario configurations -/

/-- The two-option prompt of Scenario A: options `["Yes", "No"]`, a
one-line question that fits the window. -/
def cfgYesNo : PromptCfg (List Char) :=
  ⟨normalize [.str (chars "Yes"), .str (chars "No")], 1, 3⟩

/-- A two-option prompt used to exercise the filter branch. -/
def cfgAB : PromptCfg (List Char) :=
  ⟨normalize [.str (chars "Apple"), .str (chars "Banana")], 1, 3⟩

end Kanban

open Kanban in
example :
    filterRank [⟨chars "Apple", 1⟩, ⟨chars "Banana", 2⟩, ⟨chars "Grape", 3⟩]
      (chars "ap") =
      [(0, ⟨chars "Apple", 1⟩), (2, ⟨chars "Grape", 3⟩)] := by decide

open Kanban in
example :
    filterRank [⟨chars "Apple", 1⟩, ⟨chars "Apricot", 2⟩] (chars "ap") =
      [(1, ⟨chars "Apricot", 2⟩), (0, ⟨chars "Apple", 1⟩)] := by decide

namespace Kanban

/-- C2: a `return` submit terminates the prompt with
`filteredOptions[selectedOptionIndex].value`; in Scenario A
(options `["Yes", "No"]`, no filter typed, initial index 0) the key
sequence `down`, `return` yields `"No"`. -/
theorem C2_submit_yields_selected :
    (∀ (α : Type) (cfg : PromptCfg α) (st : PromptState α) (ks : List KeyName),
      runKeys cfg (.ret :: ks) st = submitValue st) ∧
    runKeys cfgYesNo [.down, .ret] (initState cfgYesNo) = some (chars "No") := by
  constructor
  · intro α cfg st ks
    rfl
  · decide

/-- C7: the free-text loop never accepts an empty line (it redraws and
asks again), a non-empty line such as `"x"` is returned verbatim, and no
run of the loop ever yields an empty answer. -/
theorem C7_empty_answer_rejected :
    freeStep [] = none ∧
    (∀ s : List Char, s ≠ [] → freeStep s = some s) ∧
    (∀ (lines : List (List Char)) (r : List Char),
      freeTextRun lines = some r → r ≠ []) := by
  refine ⟨rfl, ?_, ?_⟩
  · intro s hs
    cases s with
    | nil => exact absurd rfl hs
    | cons a t => rfl
  · intro lines
    induction lines with
    | nil => intro r h; exact absurd h (by simp [freeTextRun])
    | cons l rest ih =>
      intro r h
      cases l with
      | nil => exact ih r h
      | cons a t =>
        intro hr
        rw [hr] at h
        simp [freeTextRun, freeStep] at h

/-- Closed instance of C7: submitting `"x"` terminates the free-text
prompt and yields `"x"`. -/
theorem C7_witness : freeStep (chars "x") = some (chars "x") :=
  C7_empty_answer_rejected.2.1 (chars "x") (by decide)

/-- C9: the abort branch of `askFileInput` runs cleanup and returns the
sentinel `false`, after which the scratch file no longer exists;
cleanup unlinks only a present file and is a silent no-op on an absent
one. -/
theorem C9_abort_cleans_up :
    (∀ (content : List Char) (fs : Option (List Char)) (rest : List FIEvent),
      runFI content fs (.menuAbort :: rest) = some (.aborted, none)) ∧
    cleanupFS none = none ∧
    (∀ s : List Char, cleanupFS (some s) = none) := by
  refine ⟨?_, rfl, fun s => rfl⟩
  intro content fs rest
  cases fs <;> rfl

/-- C8: on `continue` with the scratch file missing, it is recreated
with the initial content and that content is the result; whenever the
result equals the initial content the yes/no confirmation is asked and
only the answer `Yes` terminates (cleaning up the file), anything else
returns to the menu; a modified result terminates immediately. The
final conjunct is Scenario C verbatim. -/
theorem C8_continue_confirmation :
    (∀ (content ans : List Char) (rest : List FIEvent),
      runFI content none (.menuContinue :: .confirm ans :: rest) =
        if ans = chars "Yes" then some (.content content, none)
        else runFI content (some content) rest) ∧
    (∀ (content ans : List Char) (rest : List FIEvent),
      runFI content (some content) (.menuContinue :: .confirm ans :: rest) =
        if ans = chars "Yes" then some (.content content, none)
        else runFI content (some content) rest) ∧
    (∀ (content cur : List Char) (rest : List FIEvent), cur ≠ content →
      runFI content (some cur) (.menuContinue :: rest) =
        some (.content cur, none)) ∧
    askFileInput (chars "hello")
        [.menuContinue, .confirm (chars "No"),
         .menuContinue, .confirm (chars "Yes")] =
      some (.content (chars "hello"), none) := by
  refine ⟨?_, ?_, ?_, by decide⟩
  · intro content ans rest
    by_cases h : ans = chars "Yes" <;>
      simp [runFI, cleanupFS, h]
  · intro content ans rest
    by_cases h : ans = chars "Yes" <;>
      simp [runFI, cleanupFS, h]
  · intro content cur rest h
    cases rest with
    | nil => simp [runFI, cleanupFS, h]
    | cons e rest2 => cases e <;> simp [runFI, cleanupFS, h]

/-- Closed instance of C8: a modified scratch file ends the flow at once
with its contents and without the file. -/
theorem C8_witness :
    runFI (chars "hello") (some (chars "bye")) [.menuContinue] =
      some (.content (chars "bye"), none) :=
  C8_continue_confirmation.2.2.1 (chars "hello") (chars "bye") []
    (by decide)

/-- The second component of an entry of `List.enum` is an element of the
underlying list. -/
theorem snd_mem_of_mem_enum {l : List α} {p : Nat × α} (h : p ∈ l.enum) :
    p.2 ∈ l := by
  obtain ⟨i, a⟩ := p
  rw [List.enum_eq_zip_range] at h
  exact (List.of_mem_zip h).2

/-- C3: a filter that matches no option name falls back to the full
original option list, and every filter edit resets the selection index
to 0. -/
theorem C3_no_match_fallback (α : Type) (opts : List (Opt α)) (f : List Char)
    (h : ∀ o ∈ opts, containsL (lowerStr o.name) (lowerStr f) = false) :
    filterRank opts (lowerStr f) = opts.enum ∧
    (∀ (cfg : PromptCfg α) (st : PromptState α) (c : Char),
      (eventStep cfg (.ch c) st).selectedOptionIndex = 0) := by
  constructor
  · by_cases hf : (lowerStr f).isEmpty
    · simp [filterRank, hf]
    · have hm : (opts.enum.filter
          fun p => containsL (lowerStr p.2.name) (lowerStr f)) = [] := by
        apply List.filter_eq_nil_iff.mpr
        intro p hp
        simp [h p.2 (snd_mem_of_mem_enum hp)]
      simp [filterRank, hf, hm, jsSort]
  · intro cfg st c
    simp [eventStep, filterEdit]

/-- Closed instance of C3: filtering `["Apple"]` by `"zz"` leaves the
full list. -/
theorem C3_witness :
    filterRank [Opt.mk (chars "Apple") (1 : Nat)] (lowerStr (chars "zz")) =
      ([Opt.mk (chars "Apple") (1 : Nat)] : List (Opt Nat)).enum :=
  (C3_no_match_fallback Nat [Opt.mk (chars "Apple") 1] (chars "zz")
    (by decide)).1

/-- The `down` transition never touches the filtered option list. -/
theorem eventStep_down_filtered (cfg : PromptCfg α) (st : PromptState α) :
    (eventStep cfg .down st).filteredOptions = st.filteredOptions := by
  simp only [eventStep]
  split <;> rfl

/-- The `up` transition never touches the filtered option list. -/
theorem eventStep_up_filtered (cfg : PromptCfg α) (st : PromptState α) :
    (eventStep cfg .up st).filteredOptions = st.filteredOptions := by
  simp only [eventStep]
  split <;> rfl

/-- The `down` transition is the successor modulo the filtered length. -/
theorem eventStep_down_idx (cfg : PromptCfg α) (st : PromptState α) {n : Nat}
    (hlen : st.filteredOptions.length = n) (hidx : st.selectedOptionIndex < n) :
    (eventStep cfg .down st).selectedOptionIndex =
      (st.selectedOptionIndex + 1) % n := by
  simp only [eventStep, hlen]
  split
  · next heq =>
    have hsum : st.selectedOptionIndex + 1 = n := by omega
    simp [hsum, Nat.mod_self]
  · next hne =>
    have hlt : st.selectedOptionIndex + 1 < n := by omega
    show min (n - 1) (st.selectedOptionIndex + 1) = (st.selectedOptionIndex + 1) % n
    rw [Nat.mod_eq_of_lt hlt]
    exact Nat.min_eq_right (by omega)

/-- The `up` transition adds `n - 1` modulo the filtered length `n`. -/
theorem eventStep_up_idx (cfg : PromptCfg α) (st : PromptState α) {n : Nat}
    (hlen : st.filteredOptions.length = n) (hidx : st.selectedOptionIndex < n) :
    (eventStep cfg .up st).selectedOptionIndex =
      (st.selectedOptionIndex + (n - 1)) % n := by
  simp only [eventStep, hlen]
  split
  · next heq =>
    rw [heq]
    rw [Nat.mod_eq_of_lt (by omega)]
    simp [hlen]
  · next hne =>
    have hsplit : st.selectedOptionIndex + (n - 1) =
        (st.selectedOptionIndex - 1) + 1 * n := by omega
    rw [hsplit, Nat.add_mul_mod_self_right, Nat.mod_eq_of_lt (by omega)]

/-- Iterating `down` `k` times adds `k` modulo the filtered length. -/
theorem down_iter_idx (cfg : PromptCfg α) {n : Nat} (hn : 0 < n) :
    ∀ (k : Nat) (st : PromptState α), st.filteredOptions.length = n →
      st.selectedOptionIndex < n →
      (((eventStep cfg .down)^[k] st).selectedOptionIndex =
        (st.selectedOptionIndex + k) % n ∧
      ((eventStep cfg .down)^[k] st).filteredOptions = st.filteredOptions) := by
  intro k
  induction k with
  | zero =>
    intro st h1 h2
    simp [Nat.mod_eq_of_lt h2]
  | succ k ih =>
    intro st h1 h2
    rw [Function.iterate_succ_apply]
    have hd1 := eventStep_down_filtered cfg st
    have hd2 := eventStep_down_idx cfg st h1 h2
    have hlen2 : (eventStep cfg .down st).filteredOptions.length = n := by
      rw [hd1, h1]
    have hidx2 : (eventStep cfg .down st).selectedOptionIndex < n := by
      rw [hd2]
      exact Nat.mod_lt _ hn
    obtain ⟨ha, hb⟩ := ih (eventStep cfg .down st) hlen2 hidx2
    constructor
    · rw [ha, hd2, Nat.mod_add_mod]
      have harith : st.selectedOptionIndex + 1 + k =
          st.selectedOptionIndex + (k + 1) := by omega
      rw [harith]
    · rw [hb, hd1]

/-- Iterating `up` `k` times adds `k * (n - 1)` modulo the filtered
length `n`. -/
theorem up_iter_idx (cfg : PromptCfg α) {n : Nat} (hn : 0 < n) :
    ∀ (k : Nat) (st : PromptState α), st.filteredOptions.length = n →
      st.selectedOptionIndex < n →
      (((eventStep cfg .up)^[k] st).selectedOptionIndex =
        (st.selectedOptionIndex + k * (n - 1)) % n ∧
      ((eventStep cfg .up)^[k] st).filteredOptions = st.filteredOptions) := by
  intro k
  induction k with
  | zero =>
    intro st h1 h2
    simp [Nat.mod_eq_of_lt h2]
  | succ k ih =>
    intro st h1 h2
    rw [Function.iterate_succ_apply]
    have hd1 := eventStep_up_filtered cfg st
    have hd2 := eventStep_up_idx cfg st h1 h2
    have hlen2 : (eventStep cfg .up st).filteredOptions.length = n := by
      rw [hd1, h1]
    have hidx2 : (eventStep cfg .up st).selectedOptionIndex < n := by
      rw [hd2]
      exact Nat.mod_lt _ hn
    obtain ⟨ha, hb⟩ := ih (eventStep cfg .up st) hlen2 hidx2
    constructor
    · rw [ha, hd2, Nat.mod_add_mod]
      have harith : st.selectedOptionIndex + (n - 1) + k * (n - 1) =
          st.selectedOptionIndex + (k + 1) * (n - 1) := by ring_nf
      rw [harith]
    · rw [hb, hd1]

/-- C4: single `up`/`down` steps follow the wraparound formulas of the
source, and `n` repetitions of either return the selection index to its
starting value. -/
theorem C4_updown_wraparound (α : Type) (cfg : PromptCfg α)
    (st : PromptState α) (n : Nat) (hlen : st.filteredOptions.length = n)
    (hn : 0 < n) (hidx : st.selectedOptionIndex < n) :
    ((eventStep cfg .down st).selectedOptionIndex =
      if st.selectedOptionIndex = n - 1 then 0
      else st.selectedOptionIndex + 1) ∧
    ((eventStep cfg .up st).selectedOptionIndex =
      if st.selectedOptionIndex = 0 then n - 1
      else st.selectedOptionIndex - 1) ∧
    ((eventStep cfg .down)^[n] st).selectedOptionIndex =
      st.selectedOptionIndex ∧
    ((eventStep cfg .up)^[n] st).selectedOptionIndex =
      st.selectedOptionIndex := by
  refine ⟨?_, ?_, ?_, ?_⟩
  · rw [eventStep_down_idx cfg st hlen hidx]
    by_cases h : st.selectedOptionIndex = n - 1
    · have hsum : n - 1 + 1 = n := by omega
      simp [h, hsum, Nat.mod_self]
    · rw [Nat.mod_eq_of_lt (by omega), if_neg h]
  · rw [eventStep_up_idx cfg st hlen hidx]
    by_cases h : st.selectedOptionIndex = 0
    · simp [h, Nat.mod_eq_of_lt (show n - 1 < n by omega)]
    · have hsplit : st.selectedOptionIndex + (n - 1) =
          (st.selectedOptionIndex - 1) + 1 * n := by omega
      rw [hsplit, Nat.add_mul_mod_self_right,
        Nat.mod_eq_of_lt (by omega), if_neg h]
  · rw [(down_iter_idx cfg hn n st hlen hidx).1, Nat.add_mod_right,
      Nat.mod_eq_of_lt hidx]
  · rw [(up_iter_idx cfg hn n st hlen hidx).1, Nat.mul_comm,
      Nat.add_mul_mod_self_right, Nat.mod_eq_of_lt hidx]

/-- Closed instance of C4: two `down` steps on the two-option prompt
return the selection to its start. -/
theorem C4_witness :
    ((eventStep cfgYesNo .down)^[2] (initState cfgYesNo)).selectedOptionIndex =
      (initState cfgYesNo).selectedOptionIndex :=
  (C4_updown_wraparound (List Char) cfgYesNo (initState cfgYesNo) 2
    (by decide) (by decide) (by decide)).2.2.1

/-- C5 fails on the source: with no scrollbar needed, `pageup` and
`pagedown` fall through to the filter-edit branch, which resets the
selection index; after `down` (index 1) a `pageup` changes the state. -/
theorem C5_counterexample :
    scrollbarB cfgYesNo = false ∧
    (realKeypress cfgYesNo .down (initState cfgYesNo)).selectedOptionIndex = 1 ∧
    (eventStep cfgYesNo .pageup
      (realKeypress cfgYesNo .down (initState cfgYesNo))).selectedOptionIndex
      = 0 ∧
    eventStep cfgYesNo .pageup
        (realKeypress cfgYesNo .down (initState cfgYesNo)) ≠
      realKeypress cfgYesNo .down (initState cfgYesNo) ∧
    eventStep cfgYesNo .pagedown
        (realKeypress cfgYesNo .down (initState cfgYesNo)) ≠
      realKeypress cfgYesNo .down (initState cfgYesNo) := by
  decide

/-- C5 amended: when no scrollbar is needed, `pageup`/`pagedown` take
the filter-edit path; with the state invariants (filter derived from
the edit buffer, filtered options derived from the filter) everything
is recomputed to its old value except the selection index, which is
reset to 0 — so the keys are no-ops exactly when the selection already
sits at 0. -/
theorem C5_amended (α : Type) (cfg : PromptCfg α) (st : PromptState α)
    (hsb : scrollbarB cfg = false)
    (hfil : st.filter = lowerStr st.line)
    (hopts : st.filteredOptions = filterRank cfg.options st.filter) :
    eventStep cfg .pageup st = { st with selectedOptionIndex := 0 } ∧
    eventStep cfg .pagedown st = { st with selectedOptionIndex := 0 } := by
  cases st with
  | mk idx qi line fil fo =>
    simp only at hfil hopts
    subst hfil
    subst hopts
    constructor <;> simp [eventStep, hsb, filterEdit]

/-- Closed instance of amended C5. -/
theorem C5_witness :
    eventStep cfgYesNo .pageup (initState cfgYesNo) =
      { initState cfgYesNo with selectedOptionIndex := 0 } :=
  (C5_amended (List Char) cfgYesNo (initState cfgYesNo) (by decide)
    (by decide) (by decide)).1

/-- Typing a string into a fresh prompt leaves the edit buffer equal to
the string, the filter equal to its lowercase form, the filtered
options recomputed by the filter/rank engine, and the selection at 0. -/
theorem typedString_init (cfg : PromptCfg α) (s : List Char) :
    typedString cfg s (initState cfg) =
      ⟨0, 0, s, lowerStr s, filterRank cfg.options (lowerStr s)⟩ := by
  induction s using List.reverseRecOn with
  | nil => simp [typedString, initState, filterRank, lowerStr]
  | append_singleton s c ih =>
    have hsplit : typedString cfg (s ++ [c]) (initState cfg) =
        realKeypress cfg (.ch c) (typedString cfg s (initState cfg)) := by
      simp [typedString, List.foldl_append]
    rw [hsplit, ih]
    simp [realKeypress, bufferEffect, eventStep, filterEdit]

/-- C6 fails on the source: the injected `set_line` command only
overwrites the edit buffer; unlike real typing it recomputes neither the
filter nor the filtered options nor the selection index. -/
theorem C6_counterexample :
    (injState cfgAB (.setLine (chars "ap")) (initState cfgAB)).filter = [] ∧
    (injState cfgAB (.setLine (chars "ap")) (initState cfgAB)).filteredOptions
      = cfgAB.options.enum ∧
    (typedString cfgAB (chars "ap") (initState cfgAB)).filter = chars "ap" ∧
    (typedString cfgAB (chars "ap") (initState cfgAB)).filteredOptions =
      [(0, ⟨chars "Apple", chars "Apple"⟩)] ∧
    injState cfgAB (.setLine (chars "ap")) (initState cfgAB) ≠
      typedString cfgAB (chars "ap") (initState cfgAB) := by
  decide

/-- C6 amended: an injected named-key event produces exactly the
transition of the corresponding real special key; `set_line` changes
only the raw edit buffer, leaving filter, filtered options and
selection untouched; the recompute happens at the next keypress event,
after which the state agrees with having typed the string for real. -/
theorem C6_amended :
    (∀ (α : Type) (cfg : PromptCfg α) (st : PromptState α) (n : KeyName),
      (∀ c : Char, n ≠ .ch c) →
      injState cfg (.keypress n) st = realKeypress cfg n st) ∧
    (∀ (α : Type) (cfg : PromptCfg α) (st : PromptState α) (s : List Char),
      (injState cfg (.setLine s) st).filter = st.filter ∧
      (injState cfg (.setLine s) st).filteredOptions = st.filteredOptions ∧
      (injState cfg (.setLine s) st).selectedOptionIndex =
        st.selectedOptionIndex ∧
      (injState cfg (.setLine s) st).line = s) ∧
    (∀ (α : Type) (cfg : PromptCfg α) (s : List Char) (c : Char),
      injState cfg (.keypress (.ch c))
          (injState cfg (.setLine s) (initState cfg)) =
        typedString cfg s (initState cfg)) := by
  refine ⟨?_, ?_, ?_⟩
  · intro α cfg st n hn
    cases n
    case ch c => exact absurd rfl (hn c)
    all_goals rfl
  · intro α cfg st s
    exact ⟨rfl, rfl, rfl, rfl⟩
  · intro α cfg s c
    rw [typedString_init]
    simp [injState, eventStep, filterEdit, initState]

/-- Closed instance of amended C6: an injected `down` equals a real
`down`. -/
theorem C6_witness :
    injState cfgAB (.keypress .down) (initState cfgAB) =
      realKeypress cfgAB .down (initState cfgAB) :=
  C6_amended.1 (List Char) cfgAB (initState cfgAB) .down
    (fun _ h => KeyName.noConfusion h)

/-! ### Characterizing the sort of the filter branch

The comparator of the filter branch has the shape `rankCmp S idx`:
`-1` when the first argument satisfies `S` (name starts with the
filter), `1` when only the second does, and an index difference
otherwise. It is not a consistent comparison function: for two
elements satisfying `S` it answers `-1` in both argument orders. The
theorems below work out exactly what `jsSort` produces for such a
comparator on an index-sorted input: the `S`-elements in reversed
original order, followed by the non-`S` elements in original order. -/

theorem rankCmp_neg {S : α → Bool} {idx : α → Int} {a : α}
    (ha : S a = true) (b : α) : rankCmp S idx a b = -1 := by
  simp [rankCmp, ha]

theorem rankCmp_pos {S : α → Bool} {idx : α → Int} {a b : α}
    (ha : S a = false) (hb : S b = true) : rankCmp S idx a b = 1 := by
  simp [rankCmp, ha, hb]

theorem rankCmp_sub {S : α → Bool} {idx : α → Int} {a b : α}
    (ha : S a = false) (hb : S b = false) :
    rankCmp S idx a b = idx a - idx b := by
  simp [rankCmp, ha, hb]

/-- A `getD` lookup within bounds yields a member of the list. -/
theorem getD_mem_of_lt (l : List α) (i : Nat) (d : α) (h : i < l.length) :
    l.getD i d ∈ l := by
  rw [List.getD_eq_getElem?_getD, List.getElem?_eq_getElem h]
  exact List.getElem_mem h

/-- When the pivot compares below every element of the array, the
binary search of `BinaryInsertionSort` lands on its left bound. -/
theorem bsearchPos_all_neg_aux (cmp : α → α → Int) (pivot : α) (arr : List α)
    (hall : ∀ x ∈ arr, cmp pivot x < 0) :
    ∀ (k left right : Nat), right - left ≤ k → right ≤ arr.length →
      bsearchPos cmp pivot arr left right = left := by
  intro k
  induction k with
  | zero =>
    intro left right hk hlen
    rw [bsearchPos]
    have h : ¬ left < right := by omega
    simp [h]
  | succ k ih =>
    intro left right hk hlen
    rw [bsearchPos]
    by_cases h : left < right
    · have hmid : left + (right - left) / 2 < right := by omega
      have hmem : arr.getD (left + (right - left) / 2) pivot ∈ arr :=
        getD_mem_of_lt arr _ pivot (by omega)
      simp only [dif_pos h, if_pos (hall _ hmem)]
      exact ih left _ (by omega) (by omega)
    · simp [h]

/-- When the pivot compares at or above every element of the array, the
binary search of `BinaryInsertionSort` lands on its right bound. -/
theorem bsearchPos_all_nonneg_aux (cmp : α → α → Int) (pivot : α)
    (arr : List α) (hall : ∀ x ∈ arr, 0 ≤ cmp pivot x) :
    ∀ (k left right : Nat), right - left ≤ k → left ≤ right →
      right ≤ arr.length →
      bsearchPos cmp pivot arr left right = right := by
  intro k
  induction k with
  | zero =>
    intro left right hk hle hlen
    rw [bsearchPos]
    have h : ¬ left < right := by omega
    simp [h]
    omega
  | succ k ih =>
    intro left right hk hle hlen
    rw [bsearchPos]
    by_cases h : left < right
    · have hmid : left + (right - left) / 2 < right := by omega
      have hmem : arr.getD (left + (right - left) / 2) pivot ∈ arr :=
        getD_mem_of_lt arr _ pivot (by omega)
      have hnneg : ¬ cmp pivot (arr.getD (left + (right - left) / 2) pivot) < 0 := by
        have := hall _ hmem
        omega
      simp only [dif_pos h, if_neg hnneg]
      exact ih _ right (by omega) (by omega) hlen
    · simp [h]
      omega

/-- Running `BinaryInsertionSort` under `rankCmp`, starting from a prefix of
`S`-elements followed by non-`S` elements whose indices lie below all
remaining indices: every remaining `S`-element is inserted at position
0 (the pivot compares `-1` against everything) and every remaining
non-`S` element at the end, so the result is the remaining
`S`-elements reversed, the prefix, then the remaining non-`S` elements
in order. -/
theorem binInsertLoop_char (S : α → Bool) (idx : α → Int) :
    ∀ (rest sAcc cAcc : List α),
      (∀ x ∈ sAcc, S x = true) →
      (∀ x ∈ cAcc, S x = false) →
      (∀ x ∈ cAcc, ∀ y ∈ rest, idx x < idx y) →
      rest.Pairwise (fun a b => idx a < idx b) →
      binInsertLoop (rankCmp S idx) (sAcc ++ cAcc) rest =
        (rest.filter S).reverse ++ sAcc ++ cAcc ++
          rest.filter (fun x => !S x) := by
  intro rest
  induction rest with
  | nil =>
    intro sAcc cAcc h1 h2 h3 h4
    simp [binInsertLoop]
  | cons p rest ih =>
    intro sAcc cAcc h1 h2 h3 h4
    rw [binInsertLoop]
    by_cases hp : S p = true
    · have hneg : ∀ x ∈ sAcc ++ cAcc, rankCmp S idx p x < 0 := by
        intro x hx
        rw [rankCmp_neg hp]
        omega
      rw [bsearchPos_all_neg_aux (rankCmp S idx) p (sAcc ++ cAcc) hneg
        (sAcc ++ cAcc).length 0 (sAcc ++ cAcc).length (by omega) le_rfl]
      have hins : insertAt (sAcc ++ cAcc) 0 p = (p :: sAcc) ++ cAcc := by
        simp [insertAt]
      rw [hins]
      rw [ih (p :: sAcc) cAcc ?_ h2 ?_ h4.of_cons]
      · simp [List.filter_cons, hp]
      · intro x hx
        rcases List.mem_cons.mp hx with h | h
        · rw [h]; exact hp
        · exact h1 x h
      · intro x hx y hy
        exact h3 x hx y (List.mem_cons_of_mem p hy)
    · have hpf : S p = false := by simpa using hp
      have hnn : ∀ x ∈ sAcc ++ cAcc, 0 ≤ rankCmp S idx p x := by
        intro x hx
        rcases List.mem_append.mp hx with h | h
        · rw [rankCmp_pos hpf (h1 x h)]
          omega
        · rw [rankCmp_sub hpf (h2 x h)]
          have := h3 x h p (List.mem_cons_self p rest)
          omega
      rw [bsearchPos_all_nonneg_aux (rankCmp S idx) p (sAcc ++ cAcc) hnn
        (sAcc ++ cAcc).length 0 (sAcc ++ cAcc).length (by omega)
        (by omega) le_rfl]
      have hins : insertAt (sAcc ++ cAcc) (sAcc ++ cAcc).length p =
          sAcc ++ (cAcc ++ [p]) := by
        rw [insertAt, List.take_length, List.drop_length]
        simp
      rw [hins]
      rw [ih sAcc (cAcc ++ [p]) h1 ?_ ?_ h4.of_cons]
      · simp [List.filter_cons, hpf]
      · intro x hx
        rcases List.mem_append.mp hx with h | h
        · exact h2 x h
        · rw [List.mem_singleton] at h
          rw [h]
          exact hpf
      · intro x hx y hy
        rcases List.mem_append.mp hx with h | h
        · exact h3 x h y (List.mem_cons_of_mem p hy)
        · rw [List.mem_singleton] at h
          rw [h]
          exact (List.pairwise_cons.mp h4).1 y hy

/-- Under `rankCmp` on an index-ascending list, the descending-run
extension takes exactly the leading `S`-elements (an `S`-element always
compares `-1`; a non-`S` element compares nonnegatively against its
index-smaller predecessor). -/
theorem descChain_eq (S : α → Bool) (idx : α → Int) :
    ∀ (rest : List α) (prev : α),
      (prev :: rest).Pairwise (fun a b => idx a < idx b) →
      descChain (rankCmp S idx) prev rest =
        (rest.takeWhile S, rest.dropWhile S) := by
  intro rest
  induction rest with
  | nil => intro prev h; rfl
  | cons x xs ih =>
    intro prev h
    rw [descChain]
    by_cases hx : S x = true
    · have hc : rankCmp S idx x prev < 0 := by
        rw [rankCmp_neg hx]
        omega
      rw [if_pos hc, ih x h.of_cons]
      simp [List.takeWhile_cons, List.dropWhile_cons, hx]
    · have hxf : S x = false := by simpa using hx
      have hc : ¬ rankCmp S idx x prev < 0 := by
        by_cases hprev : S prev = true
        · rw [rankCmp_pos hxf hprev]
          omega
        · have hpf : S prev = false := by simpa using hprev
          rw [rankCmp_sub hxf hpf]
          have hlt : idx prev < idx x :=
            (List.pairwise_cons.mp h).1 x (List.mem_cons_self x xs)
          omega
      rw [if_neg hc]
      simp [List.takeWhile_cons, List.dropWhile_cons, hxf]

/-- Under `rankCmp` on an index-ascending list, the ascending-run
extension takes exactly the leading non-`S` elements. -/
theorem ascChain_eq (S : α → Bool) (idx : α → Int) :
    ∀ (rest : List α) (prev : α),
      (prev :: rest).Pairwise (fun a b => idx a < idx b) →
      ascChain (rankCmp S idx) prev rest =
        (rest.takeWhile (fun x => !S x), rest.dropWhile (fun x => !S x)) := by
  intro rest
  induction rest with
  | nil => intro prev h; rfl
  | cons x xs ih =>
    intro prev h
    rw [ascChain]
    by_cases hx : S x = true
    · have hc : rankCmp S idx x prev < 0 := by
        rw [rankCmp_neg hx]
        omega
      rw [if_pos hc]
      simp [List.takeWhile_cons, List.dropWhile_cons, hx]
    · have hxf : S x = false := by simpa using hx
      have hc : ¬ rankCmp S idx x prev < 0 := by
        by_cases hprev : S prev = true
        · rw [rankCmp_pos hxf hprev]
          omega
        · have hpf : S prev = false := by simpa using hprev
          rw [rankCmp_sub hxf hpf]
          have hlt : idx prev < idx x :=
            (List.pairwise_cons.mp h).1 x (List.mem_cons_self x xs)
          omega
      rw [if_neg hc, ih x h.of_cons]
      simp [List.takeWhile_cons, List.dropWhile_cons, hxf]

/-- Splitting a filter along a `takeWhile`/`dropWhile` boundary whose
predicate implies the filter predicate. -/
theorem filter_eq_takeWhile_append (P Q : α → Bool)
    (h : ∀ x, P x = true → Q x = true) :
    ∀ l : List α,
      l.filter Q = l.takeWhile P ++ (l.dropWhile P).filter Q := by
  intro l
  induction l with
  | nil => rfl
  | cons x xs ih =>
    by_cases hx : P x = true
    · simp [List.takeWhile_cons, List.dropWhile_cons, List.filter_cons, hx,
        h x hx, ih]
    · have hxf : P x = false := by simpa using hx
      simp [List.takeWhile_cons, List.dropWhile_cons, hxf]

/-- A filter whose predicate excludes the `takeWhile` predicate ignores
the taken prefix. -/
theorem filter_eq_filter_dropWhile (P Q : α → Bool)
    (h : ∀ x, P x = true → Q x = false) :
    ∀ l : List α, l.filter Q = (l.dropWhile P).filter Q := by
  intro l
  induction l with
  | nil => rfl
  | cons x xs ih =>
    by_cases hx : P x = true
    · simp [List.dropWhile_cons, List.filter_cons, hx, h x hx, ih]
    · have hxf : P x = false := by simpa using hx
      simp [List.dropWhile_cons, hxf]

/-- Unfolding `jsSort` on a list of at least two elements. -/
theorem jsSort_cons_cons (cmp : α → α → Int) (a b : α) (rest : List α) :
    jsSort cmp (a :: b :: rest) =
      binInsertLoop cmp (makeRun cmp (a :: b :: rest)).1
        (makeRun cmp (a :: b :: rest)).2 := rfl

/-- When the second element satisfies `S`, `CountAndMakeRun` detects a
descending run of the head plus the leading `S`-elements and reverses
it. -/
theorem makeRun_desc (S : α → Bool) (idx : α → Int) (a b : α)
    (rest : List α) (hb : S b = true)
    (hm : (a :: b :: rest).Pairwise fun x y => idx x < idx y) :
    makeRun (rankCmp S idx) (a :: b :: rest) =
      ((a :: b :: rest.takeWhile S).reverse, rest.dropWhile S) := by
  rw [makeRun]
  have hc : rankCmp S idx b a < 0 := by
    rw [rankCmp_neg hb]
    omega
  rw [if_pos hc, descChain_eq S idx rest b hm.of_cons]

/-- When the second element does not satisfy `S`, `CountAndMakeRun`
detects an ascending run of the head plus the leading non-`S`
elements. -/
theorem makeRun_asc (S : α → Bool) (idx : α → Int) (a b : α)
    (rest : List α) (hb : S b = false)
    (hm : (a :: b :: rest).Pairwise fun x y => idx x < idx y) :
    makeRun (rankCmp S idx) (a :: b :: rest) =
      (a :: b :: rest.takeWhile (fun x => !S x),
        rest.dropWhile (fun x => !S x)) := by
  rw [makeRun]
  have hc : ¬ rankCmp S idx b a < 0 := by
    by_cases ha : S a = true
    · rw [rankCmp_pos hb ha]
      omega
    · have haf : S a = false := by simpa using ha
      rw [rankCmp_sub hb haf]
      have hlt : idx a < idx b :=
        (List.pairwise_cons.mp hm).1 b (List.mem_cons_self b rest)
      omega
  rw [if_neg hc, ascChain_eq S idx rest b hm.of_cons]

/-- What the Node sort produces under the filter-branch comparator on an
index-ascending list: the `S`-elements in reverse original order, then
the non-`S` elements in original order. -/
theorem jsSort_rankCmp_char (S : α → Bool) (idx : α → Int) (m : List α)
    (hm : m.Pairwise fun x y => idx x < idx y) :
    jsSort (rankCmp S idx) m =
      (m.filter S).reverse ++ m.filter (fun x => !S x) := by
  rcases m with _ | ⟨a, _ | ⟨b, rest⟩⟩
  · rfl
  · by_cases ha : S a = true
    · simp [jsSort, List.filter_cons, ha]
    · have haf : S a = false := by simpa using ha
      simp [jsSort, List.filter_cons, haf]
  · have hm1 : ∀ y ∈ b :: rest, idx a < idx y := (List.pairwise_cons.mp hm).1
    have hmb : (b :: rest).Pairwise fun x y => idx x < idx y := hm.of_cons
    have hmb1 : ∀ y ∈ rest, idx b < idx y := (List.pairwise_cons.mp hmb).1
    have hrp : rest.Pairwise fun x y => idx x < idx y := hmb.of_cons
    rw [jsSort_cons_cons]
    by_cases hb : S b = true
    · rw [makeRun_desc S idx a b rest hb hm]
      dsimp only
      have htw : ∀ x ∈ rest.takeWhile S, S x = true :=
        fun x hx => List.mem_takeWhile_imp hx
      have hdw : List.Sublist (rest.dropWhile S) rest :=
        List.dropWhile_sublist S
      have hdwp : (rest.dropWhile S).Pairwise fun x y => idx x < idx y :=
        hrp.sublist hdw
      have hfS : rest.filter S =
          rest.takeWhile S ++ (rest.dropWhile S).filter S :=
        filter_eq_takeWhile_append S S (fun x hx => hx) rest
      have hfC : rest.filter (fun x => !S x) =
          (rest.dropWhile S).filter (fun x => !S x) :=
        filter_eq_filter_dropWhile S (fun x => !S x)
          (fun x hx => by simp [hx]) rest
      by_cases ha : S a = true
      · have hmain := binInsertLoop_char S idx (rest.dropWhile S)
          ((a :: b :: rest.takeWhile S).reverse) [] ?_ ?_ ?_ hdwp
        · rw [List.append_nil] at hmain
          rw [hmain]
          simp [List.filter_cons, ha, hb, hfS, hfC, List.reverse_append,
            List.append_assoc]
        · intro x hx
          rw [List.mem_reverse] at hx
          rcases List.mem_cons.mp hx with h | h
          · rw [h]; exact ha
          · rcases List.mem_cons.mp h with h2 | h2
            · rw [h2]; exact hb
            · exact htw x h2
        · intro x hx
          exact absurd hx (List.not_mem_nil x)
        · intro x hx
          exact absurd hx (List.not_mem_nil x)
      · have haf : S a = false := by simpa using ha
        have hmain := binInsertLoop_char S idx (rest.dropWhile S)
          ((b :: rest.takeWhile S).reverse) [a] ?_ ?_ ?_ hdwp
        · rw [List.reverse_cons, List.reverse_cons]
          rw [List.reverse_cons] at hmain
          rw [hmain]
          simp [List.filter_cons, haf, hb, hfS, hfC, List.reverse_append,
            List.append_assoc]
        · intro x hx
          rw [List.mem_reverse] at hx
          rcases List.mem_cons.mp hx with h | h
          · rw [h]; exact hb
          · exact htw x h
        · intro x hx
          rw [List.mem_singleton] at hx
          rw [hx]; exact haf
        · intro x hx y hy
          rw [List.mem_singleton] at hx
          rw [hx]
          exact hm1 y (List.mem_cons_of_mem b (hdw.subset hy))
    · have hbf : S b = false := by simpa using hb
      rw [makeRun_asc S idx a b rest hbf hm]
      dsimp only
      have htw : ∀ x ∈ rest.takeWhile (fun x => !S x), S x = false := by
        intro x hx
        have := List.mem_takeWhile_imp hx
        simpa using this
      have hdw : List.Sublist (rest.dropWhile (fun x => !S x)) rest :=
        List.dropWhile_sublist (fun x => !S x)
      have hdwp : (rest.dropWhile (fun x => !S x)).Pairwise
          fun x y => idx x < idx y := hrp.sublist hdw
      have hfS : rest.filter S =
          (rest.dropWhile (fun x => !S x)).filter S :=
        filter_eq_filter_dropWhile (fun x => !S x) S
          (fun x hx => by simpa using hx) rest
      have hfC : rest.filter (fun x => !S x) =
          rest.takeWhile (fun x => !S x) ++
            (rest.dropWhile (fun x => !S x)).filter (fun x => !S x) :=
        filter_eq_takeWhile_append (fun x => !S x) (fun x => !S x)
          (fun x hx => hx) rest
      have hPW : (rest.takeWhile (fun x => !S x) ++
          rest.dropWhile (fun x => !S x)).Pairwise
            fun x y => idx x < idx y := by
        rw [List.takeWhile_append_dropWhile]
        exact hrp
      have hcross := (List.pairwise_append.mp hPW).2.2
      by_cases ha : S a = true
      · have hmain := binInsertLoop_char S idx
          (rest.dropWhile (fun x => !S x)) [a]
          (b :: rest.takeWhile (fun x => !S x)) ?_ ?_ ?_ hdwp
        · rw [List.singleton_append] at hmain
          rw [hmain]
          simp [List.filter_cons, ha, hbf, hfS, hfC, List.reverse_append,
            List.append_assoc]
        · intro x hx
          rw [List.mem_singleton] at hx
          rw [hx]; exact ha
        · intro x hx
          rcases List.mem_cons.mp hx with h | h
          · rw [h]; exact hbf
          · exact htw x h
        · intro x hx y hy
          rcases List.mem_cons.mp hx with h | h
          · rw [h]
            exact hmb1 y (hdw.subset hy)
          · exact hcross x h y hy
      · have haf : S a = false := by simpa using ha
        have hmain := binInsertLoop_char S idx
          (rest.dropWhile (fun x => !S x)) []
          (a :: b :: rest.takeWhile (fun x => !S x)) ?_ ?_ ?_ hdwp
        · rw [List.nil_append] at hmain
          rw [hmain]
          simp [List.filter_cons, haf, hbf, hfS, hfC, List.reverse_append,
            List.append_assoc]
        · intro x hx
          exact absurd hx (List.not_mem_nil x)
        · intro x hx
          rcases List.mem_cons.mp hx with h | h
          · rw [h]; exact haf
          · rcases List.mem_cons.mp h with h2 | h2
            · rw [h2]; exact hbf
            · exact htw x h2
        · intro x hx y hy
          rcases List.mem_cons.mp hx with h | h
          · rw [h]
            exact hm1 y (List.mem_cons_of_mem b (hdw.subset hy))
          · rcases List.mem_cons.mp h with h2 | h2
            · rw [h2]
              exact hmb1 y (hdw.subset hy)
            · exact hcross x h2 y hy

/-- A nonempty list contributes to at least one of the two filter
groups. -/
theorem rev_filter_append_filter_ne_nil (S : β → Bool) (l : List β)
    (h : l ≠ []) :
    (l.filter S).reverse ++ l.filter (fun x => !S x) ≠ [] := by
  rcases l with _ | ⟨q, qs⟩
  · exact absurd rfl h
  · intro hcontra
    rw [List.append_eq_nil] at hcontra
    obtain ⟨h1, h2⟩ := hcontra
    rw [List.reverse_eq_nil_iff] at h1
    by_cases hq : S q = true
    · have hmem : q ∈ (q :: qs).filter S :=
        List.mem_filter.mpr ⟨List.mem_cons_self q qs, hq⟩
      rw [h1] at hmem
      exact List.not_mem_nil q hmem
    · have hqf : S q = false := by simpa using hq
      have hmem : q ∈ (q :: qs).filter (fun x => !S x) :=
        List.mem_filter.mpr ⟨List.mem_cons_self q qs, by simp [hqf]⟩
      rw [h2] at hmem
      exact List.not_mem_nil q hmem

/-- The guard-and-fallback `if` of the filter branch is the identity on
a nonempty list. -/
theorem if_isEmpty_eq_self {β : Type} (d l : List β) (h : l ≠ []) :
    (if l.isEmpty then d else l) = l := by
  rcases l with _ | ⟨x, t⟩
  · exact absurd rfl h
  · rfl

/-- The index tags of `List.enum` are strictly increasing. -/
theorem enum_pairwise_fst (l : List β) :
    l.enum.Pairwise fun p q => p.1 < q.1 := by
  have h1 : (l.enum.map Prod.fst).Pairwise (· < ·) := by
    rw [List.enum_map_fst]
    exact List.pairwise_lt_range l.length
  exact List.pairwise_map.mp h1

/-- C1 fails on the source: for options `["Apple", "Apricot"]` and
filter `"ap"` (both names start with the filter) the comparator answers
`-1` in both argument orders, so it is not a consistent comparison
function; the TimSort of Node detects the pair as a descending run and
reverses it, producing `["Apricot", "Apple"]` instead of the
original-order `["Apple", "Apricot"]` the claim demands. -/
theorem C1_counterexample :
    filterRank
        [Opt.mk (chars "Apple") (chars "Apple"),
         Opt.mk (chars "Apricot") (chars "Apricot")] (chars "ap") =
      [(1, Opt.mk (chars "Apricot") (chars "Apricot")),
       (0, Opt.mk (chars "Apple") (chars "Apple"))] ∧
    specFilterRank
        [Opt.mk (chars "Apple") (chars "Apple"),
         Opt.mk (chars "Apricot") (chars "Apricot")] (chars "ap") =
      [(0, Opt.mk (chars "Apple") (chars "Apple")),
       (1, Opt.mk (chars "Apricot") (chars "Apricot"))] ∧
    filterRank
        [Opt.mk (chars "Apple") (chars "Apple"),
         Opt.mk (chars "Apricot") (chars "Apricot")] (chars "ap") ≠
      specFilterRank
        [Opt.mk (chars "Apple") (chars "Apple"),
         Opt.mk (chars "Apricot") (chars "Apricot")] (chars "ap") := by
  decide

/-- C1 amended: for a non-empty filter with at least one matching
option, `filter(options, f)` returns exactly the options whose
lowercase name contains the filter, with every starts-with option
ranked before every contains-only option; the contains-only options
keep their original relative order, but the starts-with options appear
in reverse of their original order. -/
theorem C1_rank_characterization (α : Type) (opts : List (Opt α))
    (f : List Char) (hf : f ≠ [])
    (hm : opts.enum.filter
        (fun p => containsL (lowerStr p.2.name) f) ≠ []) :
    filterRank opts f =
      ((opts.enum.filter fun p => containsL (lowerStr p.2.name) f).filter
          fun p => startsWithL (lowerStr p.2.name) f).reverse ++
        ((opts.enum.filter fun p => containsL (lowerStr p.2.name) f).filter
          fun p => !startsWithL (lowerStr p.2.name) f) := by
  have hfe2 : f.isEmpty = false := by
    rcases f with _ | ⟨c, t⟩
    · exact absurd rfl hf
    · rfl
  have hfeneg : ¬ (f.isEmpty = true) := by simp [hfe2]
  have hmp : (opts.enum.filter
      (fun p => containsL (lowerStr p.2.name) f)).Pairwise
        fun p q => p.1 < q.1 :=
    (enum_pairwise_fst opts).sublist (List.filter_sublist _)
  have hmpInt : (opts.enum.filter
      (fun p => containsL (lowerStr p.2.name) f)).Pairwise
        fun p q => ((p.1 : Int) < (q.1 : Int)) :=
    hmp.imp (fun h => by exact_mod_cast h)
  have hcmp :
      rankCmp (fun p : Nat × Opt α => startsWithL (lowerStr p.2.name) f)
        (fun p : Nat × Opt α => (p.1 : Int)) = optCmp f := rfl
  have hchar := jsSort_rankCmp_char
    (fun p : Nat × Opt α => startsWithL (lowerStr p.2.name) f)
    (fun p : Nat × Opt α => (p.1 : Int))
    (opts.enum.filter fun p => containsL (lowerStr p.2.name) f) hmpInt
  have hne := rev_filter_append_filter_ne_nil
    (fun p : Nat × Opt α => startsWithL (lowerStr p.2.name) f)
    (opts.enum.filter fun p => containsL (lowerStr p.2.name) f) hm
  unfold filterRank
  rw [if_neg hfeneg]
  rw [← hcmp]
  dsimp only
  rw [hchar]
  exact if_isEmpty_eq_self opts.enum _ hne

/-- Closed instance of amended C1 at the counterexample input. -/
theorem C1_witness :
    filterRank
        [Opt.mk (chars "Apple") (chars "Apple"),
         Opt.mk (chars "Apricot") (chars "Apricot")] (chars "ap") =
      (([Opt.mk (chars "Apple") (chars "Apple"),
         Opt.mk (chars "Apricot") (chars "Apricot")].enum.filter
            fun p => containsL (lowerStr p.2.name) (chars "ap")).filter
          fun p => startsWithL (lowerStr p.2.name) (chars "ap")).reverse ++
        (([Opt.mk (chars "Apple") (chars "Apple"),
           Opt.mk (chars "Apricot") (chars "Apricot")].enum.filter
            fun p => containsL (lowerStr p.2.name) (chars "ap")).filter
          fun p => !startsWithL (lowerStr p.2.name) (chars "ap")) :=
  C1_rank_characterization (List Char)
    [Opt.mk (chars "Apple") (chars "Apple"),
     Opt.mk (chars "Apricot") (chars "Apricot")] (chars "ap")
    (by decide) (by decide)

/-- C10: after an `escape` keypress the edit buffer and filter are
empty, `filteredOptions` is the full normalized option list in original
order, and the selection index is 0 — escape takes the same
recompute-and-reset path as any other filter edit. -/
theorem C10_escape_resets (α : Type) (cfg : PromptCfg α) (st : PromptState α) :
    (eventStep cfg .escape st).line = [] ∧
    (eventStep cfg .escape st).filter = [] ∧
    (eventStep cfg .escape st).filteredOptions = cfg.options.enum ∧
    (eventStep cfg .escape st).selectedOptionIndex = 0 := by
  simp [eventStep, filterEdit, lowerStr, filterRank]

end Kanban
